import Mathlib

/-!
Verification of the interactive-session core of the `pdbpp` debugger
(`src/pdbpp.py`), against its natural-language specification.

Strings are modelled as `List Char`.  Python machine integers are modelled
as `Nat`/`Int` (the file notes at each definition which is used and why).
Every definition is translated from the source module `src/pdbpp.py`;
the one external collaborator used by `Pdb.parseline` (the standard
library baseline tokenizer `cmd.Cmd.parseline`) is modelled at its
interface and marked as such in its doc comment.
-/

set_option maxRecDepth 8000

abbrev Str := List Char

/-- The ASCII escape character `\x1b` used by `RE_COLOR_ESCAPES`. -/
def escChar : Char := '\x1b'

/-- Python whitespace (`str.strip`, `\s` on the ASCII strings involved). -/
def isPySpace (c : Char) : Bool :=
  c = ' ' || c = '\t' || c = '\n' || c = '\r' || c = '\x0b' || c = '\x0c'

/-- Python `str.strip()`: remove leading and trailing whitespace. -/
def pstrip (l : Str) : Str :=
  ((l.dropWhile isPySpace).reverse.dropWhile isPySpace).reverse

/-!
## The color-escape regex `RE_COLOR_ESCAPES = re.compile("(\x1b[^m]+m)+")`

A single *unit* of the pattern is `\x1b[^m]+m`: the escape character, one
or more characters other than `m`, then `m`.  A *match* is one or more
consecutive units (the outer `+`), taken greedily.  `re.finditer`/`re.sub`
scan left to right for non-overlapping matches; the scan below mirrors
that: at each position, if a match starts there, it is consumed greedily,
otherwise the character is kept (it is "visible") and the scan moves on.
-/

/-- Match one unit `\x1b[^m]+m` at the head of `l`; on success return
`(consumed, rest)`.  The `[^m]+` part is the maximal run of non-`m`
characters, which must be nonempty, and must be followed by `m`. -/
def unitSplit (l : Str) : Option (Str × Str) :=
  match l with
  | [] => none
  | c :: rest =>
    if c = escChar then
      let mid := rest.takeWhile (· ≠ 'm')
      match rest.dropWhile (· ≠ 'm') with
      | 'm' :: after => if mid = [] then none else some (escChar :: mid ++ ['m'], after)
      | _ => none
    else none

/-- Greedy `(\x1b[^m]+m)+` at the head of the string: consume one or more
units, as many as possible (fuelled; `escMatch` supplies adequate fuel). -/
def unitsF : Nat → Str → Option (Str × Str)
  | 0, _ => none
  | fuel+1, l =>
    match unitSplit l with
    | none => none
    | some (u, r) =>
      match unitsF fuel r with
      | none => some (u, r)
      | some (m, r2) => some (u ++ m, r2)

/-- A greedy match of `RE_COLOR_ESCAPES` at the head of the string:
`some (matched, rest)` or `none` when no match starts here. -/
def escMatch (l : Str) : Option (Str × Str) := unitsF l.length l

/-- `RE_COLOR_ESCAPES.sub("", s)`: remove every (leftmost, greedy,
non-overlapping) match; what remains is the "visible" text (fuelled). -/
def stripF : Nat → Str → Str
  | 0, _ => []
  | fuel+1, l =>
    match l with
    | [] => []
    | c :: rest =>
      match escMatch l with
      | some (_, rem) => stripF fuel rem
      | none => c :: stripF fuel rest

/-- `RE_COLOR_ESCAPES.sub("", s)` — the visible text of `s`. -/
def stripEsc (l : Str) : Str := stripF l.length l

/-- The shape of one matched unit `\x1b[^m]+m`: the escape character,
a nonempty run of non-`m` characters, then `m`. -/
def UnitShape (u : Str) : Prop :=
  ∃ mid, mid ≠ [] ∧ (∀ c ∈ mid, c ≠ 'm') ∧ u = escChar :: mid ++ ['m']

/-- A nonempty concatenation of units — the exact texts matched by
`RE_COLOR_ESCAPES`. -/
inductive UnitChain : Str → Prop
  | single {u : Str} : UnitShape u → UnitChain u
  | cons {u m : Str} : UnitShape u → UnitChain m → UnitChain (u ++ m)

/-- Split `s` at the first `RE_COLOR_ESCAPES` match:
`some (gap, matched, rest)` where `gap` is the text before the first
match, or `none` when `s` has no match (`re.finditer` finds nothing). -/
def firstSplit : Str → Option (Str × Str × Str)
  | [] => none
  | c :: rest =>
    match escMatch (c :: rest) with
    | some (m, rem) => some ([], m, rem)
    | none =>
      match firstSplit rest with
      | some (g, m, rem) => some (c :: g, m, rem)
      | none => none

/-- The truncation loop of `Pdb._truncate_to_visible_length` (fuelled).
`b` is the remaining visible budget (`maxlength - total_visible_len`).
Mirrors the Python per-match loop:
* no match in `s` (`finditer` empty / text after the last match): take
  the first `b` characters (`s[:maxlength]` resp. `rest[:maxlength -
  total_visible_len]`);
* otherwise with gap `g` and match `e`: when the budget is exhausted by
  the gap (`overflow >= 0`), emit the clipped gap plus the whole escape
  match and stop (the `break`); otherwise emit gap and match in full and
  continue with the remaining budget. -/
def truncCoreF : Nat → Str → Nat → Str
  | 0, s, b => s.take b
  | fuel+1, s, b =>
    match firstSplit s with
    | none => s.take b
    | some (g, e, rest) =>
      if b ≤ g.length then g.take b ++ e
      else g ++ e ++ truncCoreF fuel rest (b - g.length)

/-- The truncation loop of `Pdb._truncate_to_visible_length`. -/
def truncCore (s : Str) (b : Nat) : Str := truncCoreF s.length s b

/-- The reset sequence of `s`: the text of the last `RE_COLOR_ESCAPES`
match when that match ends exactly at the end of `s`
(`matches[-1].span()[1] == len(s)`), else `none` (fuelled inner loop). -/
def lastResetF : Nat → Str → Option Str
  | 0, _ => none
  | fuel+1, s =>
    match firstSplit s with
    | none => none
    | some (_, e, rest) =>
      match lastResetF fuel rest with
      | some rs => some rs
      | none => if rest = [] then some e else none

/-- The reset sequence at the end of `s`, if any. -/
def lastReset (s : Str) : Option Str := lastResetF s.length s

/-- `Pdb._truncate_to_visible_length(s, maxlength)`: truncate `s` to at
most `maxlength` visible characters, keeping escape sequences intact, and
when truncation changed the string and `s` ended in a reset escape
sequence, make sure the result still ends with that reset sequence.
`maxlength` is a visible length, modelled as `Nat` (its only caller
passes `max(width - 9, 16)`). -/
def truncate_to_visible_length (s : Str) (maxlength : Nat) : Str :=
  let ret := truncCore s maxlength
  if ret.length ≠ s.length then
    match lastReset s with
    | some rs => if rs.isSuffixOf ret then ret else ret ++ rs
    | none => ret
  else ret

/-!
## Frame/Stack model: `Pdb._is_hidden`, `Pdb.compute_stack`, `Pdb.refresh_stack`

A frame is an opaque host-runtime handle; `_is_hidden` only reads the
fields modelled below and compares identity (`is`), modelled by `fid`.
-/

structure Frame where
  /-- identity of the frame object (Python `is` comparison) -/
  fid : Nat
  /-- `f_code.co_consts` is nonempty and its last element `is _HIDE_FRAME` -/
  decoratorHidden : Bool
  /-- truthiness of `f_globals.get("__unittest")` -/
  unittestGlobal : Bool
  /-- `f_locals["__tracebackhide__"]`: `none` models the
  `TypeError`/`KeyError` path, `some b` the truthiness of the value -/
  tbhLocal : Option Bool
  /-- `f_globals["__tracebackhide__"]`, same convention -/
  tbhGlobal : Option Bool
deriving DecidableEq, Repr

/-- A stack entry `(frame, lineno)`. -/
abbrev Entry := Frame × Nat

/-- `Pdb._is_hidden(frame)`.  `enable` is
`self.config.enable_hidden_frames`, `viaSetTrace` the identity of
`self._via_set_trace_frame` (`none` when the attribute is unset). -/
def is_hidden (enable : Bool) (viaSetTrace : Option Nat) (f : Frame) : Bool :=
  if !enable then false
  else if f.decoratorHidden then true
  else if viaSetTrace = some f.fid then false
  else if f.unittestGlobal then true
  else
    match f.tbhLocal with
    | some b => b
    | none =>
      match f.tbhGlobal with
      | some b => b
      | none => false

/-- `Pdb.compute_stack(fullstack, idx)`.  `hide` is the
`self._is_hidden` predicate, `show_hidden` is
`self.show_hidden_frames`; returns `(newstack, newidx)`.  The index is
an `Int` because Python computes `idx - len(self._hidden_frames)`,
which can be negative.  The hidden list is `fullstack.filter hide`
(the loop partitions the stack preserving order); when every frame is
hidden, the last hidden frame is popped back into the visible list, so
the index correction shrinks by one. -/
def compute_stack (hide : Frame → Bool) (show_hidden : Bool)
    (fullstack : List Entry) (idx : Option Int) : List Entry × Int :=
  if fullstack = [] then ([], idx.getD 0)
  else
    let i : Int :=
      match idx with
      | some j => j
      | none => (fullstack.length : Int) - 1
    if show_hidden then (fullstack, i)
    else
      let hiddenFrames := fullstack.filter (fun e => hide e.1)
      let newstack := fullstack.filter (fun e => !hide e.1)
      if newstack = [] then
        (hiddenFrames.getLast?.toList, i - ((hiddenFrames.length : Int) - 1))
      else (newstack, i - (hiddenFrames.length : Int))

/-- `Pdb.refresh_stack()`: recompute the visible stack from
`self.fullstack` (index `None`), then find `self.curframe` in it by
identity; if absent, fall back to the last visible frame (the Python
code also prints the new current entry there, a side effect not
modelled).  Returns `(stack, curindex, curframe-id)`.  The fallback
`getD` defaults are unreachable: the visible stack is never empty for a
nonempty `fullstack`. -/
def refresh_stack (hide : Frame → Bool) (show_hidden : Bool)
    (fullstack : List Entry) (curframeId : Nat) : List Entry × Nat × Nat :=
  let stack := (compute_stack hide show_hidden fullstack none).1
  match stack.findIdx? (fun e => e.1.fid = curframeId) with
  | some i => (stack, i, curframeId)
  | none =>
    (stack, stack.length - 1, ((stack.getLast?).map (fun e => e.1.fid)).getD curframeId)

/-!
## Session construction: `PdbMeta.__call__`

Modelled as a function from the construction context to either a normal
return (`Except.ok`) or an escaping exception (`Except.error`); both
carry the value of the thread-local recursion guard
`local._pdbpp_in_init` at the moment control leaves `__call__`.  The
sub-calls that execute user-extensible code and can therefore raise are
modelled by three injection flags: `OrigPdb.__init__` (line 240), the
global-pdb reuse setup (`set_continue`/`_setup_streams`, lines 273-278)
and `obj.__init__` (line 294).  There is no `try`/`finally` in the
source: each `local._pdbpp_in_init = False` assignment sits on a
straight-line path before a `return`.
-/

structure CallArgs where
  /-- `local._pdbpp_in_init` on entry -/
  guardSet : Bool
  /-- `getattr(local, "GLOBAL_PDB", None)` is truthy -/
  hasGlobalPdb : Bool
  /-- `global_pdb._in_interaction` -/
  globalInInteraction : Bool
  /-- `os.environ.get("PDBPP_REUSE_GLOBAL_PDB", "1") == "1"` -/
  envReuseOk : Bool
  /-- the `use_global_pdb` keyword argument, if passed -/
  kwUseGlobalPdb : Option Bool
  /-- `PdbMeta.called_for_set_trace(frame)` found a set_trace call -/
  calledForSetTrace : Bool
  /-- `hasattr(global_pdb, "_force_use_as_global_pdb") or
  cls.use_global_pdb_for_class(global_pdb, cls)` -/
  classMatch : Bool
  /-- `OrigPdb.__init__` raises (recursive-guard fallback path) -/
  origInitRaises : Bool
  /-- the reuse setup on the global pdb raises -/
  reuseSetupRaises : Bool
  /-- `obj.__init__` raises (new-session path) -/
  objInitRaises : Bool
deriving DecidableEq, Repr

inductive CallOutcome
  /-- a bare `OrigPdb` fallback instance was returned -/
  | origPdb
  /-- the existing global pdb instance was returned -/
  | reusedGlobal
  /-- a freshly constructed instance was returned -/
  | newObj
deriving DecidableEq, Repr

/-- The `use_global_pdb` value: the keyword argument if passed, else
the default from lines 247-255. -/
def useGlobalPdbDecision (a : CallArgs) : Bool :=
  match a.kwUseGlobalPdb with
  | some b => b
  | none => if a.hasGlobalPdb then !a.globalInInteraction && a.envReuseOk else true

/-- `PdbMeta.__call__`: the value is `ok (guard, outcome)` on a normal
return and `error guard` when an exception escapes, `guard` being
`local._pdbpp_in_init` as control leaves the constructor. -/
def pdbMetaCall (a : CallArgs) : Except Bool (Bool × CallOutcome) :=
  if a.guardSet then
    -- recursion guard already set: fall back to a plain pdb.Pdb
    if a.origInitRaises then .error true
    else .ok (false, .origPdb)
  else
    -- line 243: local._pdbpp_in_init = True
    if a.hasGlobalPdb && useGlobalPdbDecision a && a.calledForSetTrace && a.classMatch then
      if a.reuseSetupRaises then .error true
      else .ok (false, .reusedGlobal)
    else
      if a.objInitRaises then .error true
      else .ok (false, .newObj)

/-!
## Command-line disambiguation: `Pdb.parseline`

The baseline tokenizer is the inherited `cmd.Cmd.parseline` (the
`super().parseline(line)` collaborator, modelled from the Python
standard library: strip the line, special-case a leading `?`/`!`, then
split at the longest prefix of identifier characters).  `pdbpp` defines
no `do_shell`, so its instances take the no-shell branch for `!`.
-/

/-- `cmd.Cmd.identchars`: ASCII letters, digits and underscore. -/
def identChar (c : Char) : Bool := c.isAlpha || c.isDigit || c = '_'

/-- The identchars split at the end of `cmd.Cmd.parseline`:
`cmd = line[:i]`, `arg = line[i:].strip()`, returns `(cmd, arg, line)`. -/
def cmdSplitCore (line : Str) : Option Str × Option Str × Str :=
  (some (line.takeWhile identChar), some (pstrip (line.dropWhile identChar)), line)

/-- `cmd.Cmd.parseline` (Python standard library), the baseline
tokenizer invoked as `super().parseline(line)`.  `hasDoShell` models
`hasattr(self, "do_shell")`, which is `False` for `pdbpp.Pdb`. -/
def cmd_parseline (hasDoShell : Bool) (line0 : Str) : Option Str × Option Str × Str :=
  let line := pstrip line0
  match line with
  | [] => (none, none, [])
  | c :: rest =>
    if c = '?' then cmdSplitCore ("help ".toList ++ rest)
    else if c = '!' then
      if hasDoShell then cmdSplitCore ("shell ".toList ++ rest)
      else (none, none, line)
    else cmdSplitCore line

/-- `ArgWithCount`: an argument string extended with an optional repeat
count (`"10pp x"` carries `cmd_count = 10`).  A plain argument has
`cmd_count = none`. -/
structure ArgWithCount where
  value : Str
  cmd_count : Option Nat
deriving DecidableEq, Repr

/-- Context read by `Pdb.parseline`: which `do_*` command methods
exist, which names are bound in `self.curframe.f_globals` or
`self.curframe_locals`, whether `self.curframe` is set, and whether the
call happens below `Cmd.complete` (the final `cmd = ""` fix-up). -/
structure ParseCtx where
  commands : List Str
  frameVars : List Str
  hasCurframe : Bool
  calledFromComplete : Bool
deriving DecidableEq, Repr

/-- `int(...)` on a digit run. -/
def digitsToNat (ds : Str) : Nat :=
  ds.foldl (fun n c => n * 10 + (c.toNat - 48)) 0

/-- `re.match(r"(\d+)(\w+)", cmd)` on an identchars-only token: the
greedy `\d+` takes the maximal digit run, backtracking one digit when
nothing remains for `\w+` (so an all-digit token of length ≥ 2 also
matches, e.g. `"123"` gives `("12", "3")`). -/
def countSplit (cmd : Str) : Option (Nat × Str) :=
  let ds := cmd.takeWhile Char.isDigit
  let ws := cmd.dropWhile Char.isDigit
  if ds = [] then none
  else if ws ≠ [] then some (digitsToNat ds, ws)
  else if 2 ≤ ds.length then some (digitsToNat ds.dropLast, [ds.getLast!])
  else none

/-- The result of `cmd is None` exits of `Pdb.parseline`: the final
fix-up turns `None` into `""` when called from `Cmd.complete`. -/
def parselineNone (ctx : ParseCtx) (line : Str) : Option Str × Option ArgWithCount × Str :=
  (if ctx.calledFromComplete then some [] else none, none, line)

/-- `Pdb.parseline(line)` (the `_pdbpp_executing_rc_lines` replay path,
unset during interactive use, is not modelled).  Returns
`(cmd, arg, newline)`; `cmd = none` means the whole line is evaluated
as an expression/statement. -/
def parseline (ctx : ParseCtx) (line : Str) : Option Str × Option ArgWithCount × Str :=
  if line.take 2 = "!!".toList then
    let r := cmd_parseline false (line.drop 2)
    (r.1, (r.2.1).map (fun a => ArgWithCount.mk a none), "!!".toList ++ r.2.2)
  else if line.getLast? = some '?' ∧ line.head? ≠ some '!' then
    let argtext := line.takeWhile (· ≠ '?')
    let cmd :=
      if line.reverse.take 2 = ['?', '?'] then "inspect_with_source".toList
      else if argtext = [] ∨ (argtext ∈ ctx.commands ∧ argtext ∉ ctx.frameVars) then
        "help".toList
      else "inspect".toList
    (some cmd, some (ArgWithCount.mk argtext none), line)
  else
    match cmd_parseline false line with
    | (some cmd, some arg, newline) =>
      if cmd ≠ [] then
        if (cmd = ['b'] ∨ cmd = ['f'] ∨ cmd = ['r'] ∨ cmd = ['u'])
            ∧ 1 < newline.length
            ∧ (newline[1]? = some '\'' ∨ newline[1]? = some '"') then
          parselineNone ctx line
        else
          let ca : Str × ArgWithCount :=
            match countSplit cmd with
            | some (n, w) => (w, ArgWithCount.mk arg (some n))
            | none => (cmd, ArgWithCount.mk arg none)
          if ca.1 ∈ ctx.commands then
            if (ctx.hasCurframe ∧ ca.1 ∈ ctx.frameVars ∧ ca.1 ++ ca.2.value = line)
                ∨ ca.2.value.head? = some '=' then
              parselineNone ctx line
            else if ca.2.value.head? = some '('
                ∧ (ca.1 = "list".toList ∨ ca.1 = "next".toList) then
              parselineNone ctx line
            else (some ca.1, some ca.2, newline)
          else (some ca.1, some ca.2, newline)
      else (some cmd, some (ArgWithCount.mk arg none), newline)
    | (_, _, newline) => parselineNone ctx newline

/-!
## Completion filtering: `Pdb._filter_completions`

`self._lastcompstate` is `[None, 0]` on a fresh session (line 553); the
pair below is that state.  `_complete` rebuilds `self._completions`
from the two completers on every `state == 0` call and then calls
`_filter_completions(text)`, which filters the list in place; for a
fixed context the rebuilt list is the same each time, so a sequence of
submissions of the same query is modelled by threading the state while
filtering the same candidate list.
-/

structure CompState where
  lastText : Option Str
  counter : Nat
deriving DecidableEq, Repr

/-- The underscore filter at the end of `_filter_completions`: names
whose visible text starts with `_` are removed unless the query already
ends in `_`; names starting with `__` are removed unless the query
already ends in `__`. -/
def underscoreFilter (text : Str) (comps : List Str) : List Str :=
  if text.getLast? ≠ some '_' then
    comps.filter (fun x => (stripEsc x).take 1 ≠ ['_'])
  else if text.reverse.take 2 ≠ ['_', '_'] then
    comps.filter (fun x => (stripEsc x).take 2 ≠ ['_', '_'])
  else comps

/-- `Pdb._filter_completions(text)` acting on the candidate list, with
the `(last text, escalation counter)` state threaded explicitly.  On
the third submission of the same text (`counter > 0`) the list is
returned unfiltered. -/
def filter_completions (st : CompState) (text : Str) (comps : List Str) :
    CompState × List Str :=
  if st.lastText = some text then
    if 0 < st.counter then (st, comps)
    else ({ st with counter := st.counter + 1 }, underscoreFilter text comps)
  else (CompState.mk (some text) 0, underscoreFilter text comps)

/-- `n` successive `state == 0` completions of the same `text` starting
from the given state, returning each attempt's candidate list. -/
def attemptsAux : Nat → CompState → Str → List Str → List (List Str)
  | 0, _, _, _ => []
  | n+1, st, text, comps =>
    let r := filter_completions st text comps
    r.2 :: attemptsAux n r.1 text comps

/-- The candidate lists shown for `n` submissions of the same query
text in a row, on a fresh session (`self._lastcompstate = [None, 0]`). -/
def completionAttempts (text : Str) (comps : List Str) (n : Nat) : List (List Str) :=
  attemptsAux n (CompState.mk none 0) text comps

/-!
## Long-listing line window: `Pdb._cut_lines`

The generator is modelled as a function returning the list of yielded
pairs; `none` in the first component marks a `"..."` ellipsis row.
-/

/-- One `COLOR_OR_SPACE` item: a color escape `\x1b[^m]+m` or a single
whitespace character; returns the rest on success. -/
def colorOrSpaceSplit (l : Str) : Option Str :=
  match unitSplit l with
  | some (_, r) => some r
  | none =>
    match l with
    | c :: r => if isPySpace c then some r else none
    | [] => none

/-- `(?:^COLOR_OR_SPACE*@)` — any run of color escapes/whitespace then
`@`, anchored at the start (fuelled; each item consumes ≥ 1 char). -/
def atHeaderF : Nat → Str → Bool
  | 0, _ => false
  | fuel+1, l =>
    match l with
    | '@' :: _ => true
    | _ =>
      match colorOrSpaceSplit l with
      | some r => atHeaderF fuel r
      | none => false

/-- `keep_pat.match(line)`: the line starts with decorator syntax
(escapes/whitespace then `@`) or with `lambda` followed by `:` or a
`COLOR_OR_SPACE` item (`re.match` anchors at position 0, where the
`(?<!\w)` look-behind is vacuous). -/
def keep_pat_match (l : Str) : Bool :=
  atHeaderF l.length l ||
  (l.take 6 = "lambda".toList &&
    (match l.drop 6 with
     | ':' :: _ => true
     | r => (colorOrSpaceSplit r).isSome))

/-- The final loop of `_cut_lines` over `enumerate(lines[keep_head:],
keep_head)`: skip `cutBefore` lines emitting one `"..."` when the
countdown hits zero, stop with a `"..."` once `i >= len(lines) -
cut_after`.  (On a negative `cut_before` Python's `assert cut_before >
0` would raise; the model keeps counting down, a path unreachable from
the theorems below.) -/
def cutLoop : List (Nat × Str) → Int → Int → Nat → Nat → List (Option Nat × Str)
  | [], _, _, _, _ => []
  | (i, line) :: rest, cutBefore, cutAfter, total, lineno =>
    if cutBefore ≠ 0 then
      let cb := cutBefore - 1
      if cb = 0 then (none, "...".toList) :: cutLoop rest 0 cutAfter total lineno
      else cutLoop rest cb cutAfter total lineno
    else if cutAfter ≠ 0 ∧ (total : Int) - cutAfter ≤ (i : Int) then
      [(none, "...".toList)]
    else (some (lineno + i), line) :: cutLoop rest 0 cutAfter total lineno

/-- `Pdb._cut_lines(lines, lineno, max_lines)`.  `maxLines0 = 0` plays
Python's falsy `max_lines` (`None` and `0` both select `len(lines)`);
the effective window is `max(6, ...)`.  `fLineno` is
`self.curframe.f_lineno` and `excLineno` is
`self.tb_lineno.get(self.curframe, None)` (`some 0` and `none` both
fall to `0`, like Python's `exc_lineno if exc_lineno else 0`).
Integer cut arithmetic is over `Int`, as in Python.  (When every line
matches `keep_pat` Python's `while` loop would raise `IndexError`; the
model's `takeWhile` returns the whole list, a path unreachable from
the theorems below.) -/
def cut_lines (lines : List Str) (lineno : Nat) (maxLines0 : Nat)
    (fLineno : Nat) (excLineno : Option Nat) : List (Option Nat × Str) :=
  let maxLines := max 6 (if maxLines0 = 0 then lines.length else maxLines0)
  if lines.length ≤ maxLines then
    lines.enum.map (fun p => (some (lineno + p.1), p.2))
  else
    let cutoff : Int := (lines.length : Int) - maxLines
    let keepHead := (lines.takeWhile keep_pat_match).length
    let headOut : List (Option Nat × Str) :=
      if 3 < keepHead then
        [(some lineno, lines.headD []), (none, "...".toList),
         (some (lineno + keepHead), (lines.take keepHead).getLastD [])]
      else (lines.take keepHead).enum.map (fun p => (some (lineno + p.1), p.2))
    let cutoff := if 3 < keepHead then cutoff - ((keepHead : Int) - 3) else cutoff
    let lastMarkerLine : Int := (max fLineno (excLineno.getD 0) : Int) - (lineno : Int)
    let cutBefore :=
      min cutoff (max 0 (lastMarkerLine - (maxLines : Int) + ((maxLines : Int) / 3) * 2))
    let cutAfter := cutoff - cutBefore
    let cutAfter := if 0 < cutAfter then cutAfter + 1 else 0
    let cutBefore := if cutBefore ≠ 0 then cutBefore + 1 else cutBefore
    headOut ++
      cutLoop ((lines.drop keepHead).enum.map (fun p => (p.1 + keepHead, p.2)))
        cutBefore cutAfter lines.length lineno

/-!
## Concrete instances used by the claim theorems
-/

/-- `String.toList`, as a short name for concrete scenarios. -/
def chars (s : String) : Str := s.toList

/-- Frame `A` of the hidden-stack scenario: hidden via a truthy local
`__tracebackhide__`. -/
def frameA : Frame := ⟨0, false, false, some true, none⟩

/-- Frame `B` of the hidden-stack scenario: hidden via a truthy local
`__tracebackhide__`. -/
def frameB : Frame := ⟨1, false, false, some true, none⟩

/-- Frame `C` of the hidden-stack scenario: no hide marker. -/
def frameC : Frame := ⟨2, false, false, none, none⟩

/-- The scenario stack `[A(hidden), B(hidden), C(visible)]`. -/
def stackABC : List Entry := [(frameA, 10), (frameB, 20), (frameC, 30)]

/-- A parse context with the relevant registered commands, no frame
variables and a current frame. -/
def ctxPlain : ParseCtx :=
  ⟨[['b'], ['f'], ['r'], ['u'], chars "pp", chars "list", chars "next",
    chars "help", chars "inspect", chars "inspect_with_source", chars "debug"],
   [], true, false⟩

/-- The same context with a frame variable named `r`. -/
def ctxWithR : ParseCtx := { ctxPlain with frameVars := [['r']] }

/-- The construction context of the `PdbMeta.__call__` counterexample:
guard clear on entry, no global pdb, and `obj.__init__` raises. -/
def callArgsRaise : CallArgs :=
  ⟨false, false, false, true, none, true, false, false, false, true⟩

/-- A 4-line function body used for the long-listing claims. -/
def fourLines : List Str :=
  [chars "def f():", chars "    a = 1", chars "    b = 2", chars "    return a + b"]

/-- Completion candidates with a private, a dunder and a plain name. -/
def compsUnderscore : List Str := [chars "_a", chars "__b", chars "xy"]

/-- A colorized line ending in a reset sequence, used as the truncation
witness. -/
def coloredLine : Str := chars "ab\x1b[31mcdefg\x1b[0m"

/-!
## Theorems
-/

/-- **C1.**  For every non-empty full stack, `compute_stack` returns a
non-empty visible stack; and when every frame satisfies the hide
predicate (with hidden-frame filtering active), the most recently
hidden frame — the last element of the hidden list — is moved back into
the visible list, which becomes exactly that singleton. -/
theorem compute_stack_never_empty (hide : Frame → Bool) (show_hidden : Bool)
    (fullstack : List Entry) (idx : Option Int) (h : fullstack ≠ []) :
    (compute_stack hide show_hidden fullstack idx).1 ≠ [] ∧
    (show_hidden = false → (∀ e ∈ fullstack, hide e.1 = true) →
      ∃ e, (fullstack.filter (fun x => hide x.1)).getLast? = some e ∧
        (compute_stack hide show_hidden fullstack idx).1 = [e]) := by
  have hfilter : (∀ e ∈ fullstack, hide e.1 = true) →
      fullstack.filter (fun x => hide x.1) = fullstack := by
    intro hall
    exact List.filter_eq_self.mpr (fun a ha => hall a ha)
  constructor
  · unfold compute_stack
    rw [if_neg h]
    cases hsh : show_hidden with
    | true => simpa using h
    | false =>
      simp only [if_neg (Bool.false_ne_true)]
      by_cases hnew : fullstack.filter (fun e => !hide e.1) = []
      · rw [if_pos hnew]
        have hall : ∀ e ∈ fullstack, hide e.1 = true := by
          intro e he
          have := List.filter_eq_nil_iff.mp hnew e he
          simpa using this
        have h2 : fullstack.filter (fun x => hide x.1) ≠ [] := by
          rw [hfilter hall]; exact h
        have h3 : (fullstack.filter (fun x => hide x.1)).getLast?.isSome := by
          rwa [List.getLast?_isSome]
        obtain ⟨e, he⟩ := Option.isSome_iff_exists.mp h3
        simp [he]
      · rw [if_neg hnew]; exact hnew
  · intro hsh hall
    have h2 : fullstack.filter (fun x => hide x.1) ≠ [] := by
      rw [hfilter hall]; exact h
    have h3 : (fullstack.filter (fun x => hide x.1)).getLast?.isSome := by
      rwa [List.getLast?_isSome]
    obtain ⟨e, he⟩ := Option.isSome_iff_exists.mp h3
    refine ⟨e, he, ?_⟩
    unfold compute_stack
    rw [if_neg h, hsh, if_neg (Bool.false_ne_true)]
    have hnew : fullstack.filter (fun e => !hide e.1) = [] := by
      apply List.filter_eq_nil_iff.mpr
      intro a ha
      simp [hall a ha]
    rw [if_pos hnew]
    simp [he]

/-- **C1 witness**: a 2-frame stack whose frames are both hidden by a
truthy `__tracebackhide__`; the filter keeps the last hidden frame. -/
theorem compute_stack_never_empty_witness :
    (compute_stack (is_hidden true none) false [(frameA, 10), (frameB, 20)] (some 1)).1 ≠ [] ∧
    (∃ e, (([(frameA, 10), (frameB, 20)] : List Entry).filter
        (fun x => is_hidden true none x.1)).getLast? = some e ∧
      (compute_stack (is_hidden true none) false [(frameA, 10), (frameB, 20)] (some 1)).1 = [e]) := by
  have h := compute_stack_never_empty (is_hidden true none) false
    [(frameA, 10), (frameB, 20)] (some 1) (by decide)
  exact ⟨h.1, h.2 rfl (by decide)⟩

/-- **C3 counterexample.**  Stack `[A(hidden), B(hidden), C(visible)]`
with current frame `B`: the recomputed stack is *not* `[B, C]` with the
index at `B` — frame `B` stays hidden because the last-hidden-unhide
rule only fires when the visible list would be empty. -/
theorem refresh_stack_scenario_not_claimed :
    refresh_stack (is_hidden true none) false stackABC 1 ≠
      ([(frameB, 20), (frameC, 30)], 0, 1) := by decide

/-- **C3 amended.**  Stack `[A(hidden), B(hidden), C(visible)]` with
current frame `B`: the visible list is `[C]` and, since the current
frame `B` was filtered out, `refresh_stack` falls back to the last
visible frame: index 0, current frame `C`. -/
theorem refresh_stack_scenario :
    refresh_stack (is_hidden true none) false stackABC 1 =
      ([(frameC, 30)], 0, 2) := by decide

/-- **C4.**  A frame that is the `_via_set_trace_frame` is never hidden
by the non-decorator predicates: without the decorator marker it is
never hidden at all (whatever `__unittest`/`__tracebackhide__` say),
and with the decorator marker (and hidden frames enabled) it is hidden. -/
theorem is_hidden_via_set_trace_frame (enable : Bool) (viaSetTrace : Option Nat)
    (f : Frame) (hvia : viaSetTrace = some f.fid) :
    (f.decoratorHidden = false → is_hidden enable viaSetTrace f = false) ∧
    (f.decoratorHidden = true → enable = true → is_hidden enable viaSetTrace f = true) := by
  subst hvia
  constructor
  · intro hdec
    cases enable with
    | false => simp [is_hidden]
    | true => simp [is_hidden, hdec]
  · intro hdec henable
    subst henable
    simp [is_hidden, hdec]

/-- **C4 witness**: a frame carrying every non-decorator hide marker
(`__unittest` and truthy `__tracebackhide__` in both scopes) that is
the set_trace entry frame is still visible. -/
theorem is_hidden_via_set_trace_frame_witness :
    is_hidden true (some 7) ⟨7, false, true, some true, some true⟩ = false :=
  (is_hidden_via_set_trace_frame true (some 7)
    ⟨7, false, true, some true, some true⟩ rfl).1 rfl

/-- **C2 counterexample.**  When `obj.__init__` raises during new-object
construction, the exception escapes `PdbMeta.__call__` with the
recursion guard `_pdbpp_in_init` still set: there is no `try/finally`,
so this exit path does not clear the guard. -/
theorem pdbMetaCall_exception_leaves_guard :
    pdbMetaCall callArgsRaise = .error true := rfl

/-- **C2 amended.**  Every *normal return* path of `PdbMeta.__call__`
clears the recursion guard `_pdbpp_in_init` before returning; exit
paths raised through by a sub-call's exception can leave it set. -/
theorem pdbMetaCall_ok_clears_guard (a : CallArgs) (g : Bool) (r : CallOutcome)
    (h : pdbMetaCall a = .ok (g, r)) : g = false := by
  unfold pdbMetaCall at h
  split at h
  · split at h
    · exact Except.noConfusion h
    · injection h with h2
      exact (congrArg Prod.fst h2).symm
  · split at h
    · split at h
      · exact Except.noConfusion h
      · injection h with h2
        exact (congrArg Prod.fst h2).symm
    · split at h
      · exact Except.noConfusion h
      · injection h with h2
        exact (congrArg Prod.fst h2).symm

/-- **C2 amended witness**: a concrete successful construction returns
with the guard cleared. -/
theorem pdbMetaCall_ok_clears_guard_witness : false = false :=
  pdbMetaCall_ok_clears_guard
    ⟨false, false, false, true, none, true, false, false, false, false⟩
    false .newObj rfl

/-- **C7.**  Parsing the line `"r"`: with a frame variable named `r`
in scope the result is expression mode (no command); without it the
result is the command `r` with empty argument. -/
theorem parseline_r_disambiguation :
    parseline ctxWithR ['r'] = (none, none, ['r']) ∧
    parseline ctxPlain ['r'] = (some ['r'], some (ArgWithCount.mk [] none), ['r']) := by
  decide

/-- **C8.**  Parsing `"10pp x"` splits the digits-glued-to-word token:
command `pp`, argument `x` carrying repeat count 10. -/
theorem parseline_count_shorthand :
    parseline ctxPlain (chars "10pp x") =
      (some (chars "pp"), some (ArgWithCount.mk ['x'] (some 10)), chars "10pp x") := by
  decide

/-- **C6 counterexample.**  The input `"b 'x'"` (with a space) is *not*
parsed as an expression: the quote is not immediately after the alias
(`newline[1]` is a space), so it parses as the `b` (break) command with
argument `'x'`. -/
theorem parseline_b_space_quote_is_command :
    parseline ctxPlain (chars "b 'x'") =
      (some ['b'], some (ArgWithCount.mk (chars "'x'") none), chars "b 'x'") ∧
    (parseline ctxPlain (chars "b 'x'")).1 ≠ none := by
  decide

/-- **C6 amended.**  A single-letter alias in `{b, f, r, u}` followed
*immediately* by a quote character (as in `b'x'`, no space) makes the
whole line an expression: `parseline` returns no command. -/
theorem parseline_alias_quote_is_expression (ctx : ParseCtx) (line : Str)
    (hcc : ctx.calledFromComplete = false)
    (hbang : line.take 2 ≠ "!!".toList)
    (hq : line.getLast? ≠ some '?')
    (c q : Char) (rest : Str) (hs : pstrip line = c :: q :: rest)
    (hc : c = 'b' ∨ c = 'f' ∨ c = 'r' ∨ c = 'u')
    (hquote : q = '\'' ∨ q = '"') :
    parseline ctx line = (none, none, line) := by
  have hcmd : cmd_parseline false line =
      (some [c], some (pstrip (q :: rest)), c :: q :: rest) := by
    unfold cmd_parseline
    rw [hs]
    rcases hc with h | h | h | h <;> subst h <;>
      rcases hquote with h | h <;> subst h <;>
        simp [cmdSplitCore, List.takeWhile, List.dropWhile, identChar]
  unfold parseline
  rw [if_neg hbang, if_neg (by simp [hq]), hcmd]
  rcases hc with h | h | h | h <;> subst h <;>
    rcases hquote with h | h <;> subst h <;>
      simp [parselineNone, hcc]

/-- **C6 amended witness**: `b'x'` parses as an expression. -/
theorem parseline_alias_quote_is_expression_witness :
    parseline ctxPlain (chars "b'x'") = (none, none, chars "b'x'") :=
  parseline_alias_quote_is_expression ctxPlain (chars "b'x'") rfl (by decide)
    (by decide) 'b' '\'' (chars "x'") (by decide) (Or.inl rfl) (Or.inl rfl)

/-- **C5 counterexample.**  Submitting the text `"x"` three times with
candidates `["_a", "__b", "xy"]`: the first *two* attempts hide both
underscore names, and the third reveals the single- and
double-underscore names *simultaneously* — at no attempt is a
single-underscore name present while a double-underscore name is
absent, so the reveal is not progressive (first `_`, then `__`). -/
theorem completionAttempts_not_progressive :
    completionAttempts (chars "x") compsUnderscore 3 =
      [[chars "xy"], [chars "xy"], [chars "_a", chars "__b", chars "xy"]] ∧
    ∀ l ∈ completionAttempts (chars "x") compsUnderscore 3,
      chars "_a" ∈ l → chars "__b" ∈ l := by decide

/-- **C5 amended.**  Repeating the same query text three times: the
first two attempts filter identically (hiding, for text not ending in
`_`, every name whose visible form starts with `_`), and the third
attempt returns the whole candidate list unfiltered, revealing single-
and double-underscore names at once; the escalation state resets to
`(text, 0)` whenever the text changes. -/
theorem filter_completions_escalation (text : Str) (comps : List Str) :
    completionAttempts text comps 3 =
      [underscoreFilter text comps, underscoreFilter text comps, comps] ∧
    (text.getLast? ≠ some '_' →
      ∀ x ∈ underscoreFilter text comps, (stripEsc x).take 1 ≠ ['_']) ∧
    (∀ st text2, st.lastText ≠ some text2 →
      filter_completions st text2 comps =
        (CompState.mk (some text2) 0, underscoreFilter text2 comps)) := by
  refine ⟨?_, ?_, ?_⟩
  · simp [completionAttempts, attemptsAux, filter_completions]
  · intro h x hx
    unfold underscoreFilter at hx
    rw [if_pos h] at hx
    have := List.mem_filter.mp hx
    simpa using this.2
  · intro st text2 hne
    unfold filter_completions
    rw [if_neg hne]

/-- **C5 amended witness**: the concrete `"x"` scenario, plus a reset
on switching to the text `"xy"`. -/
theorem filter_completions_escalation_witness :
    completionAttempts (chars "x") compsUnderscore 3 =
      [underscoreFilter (chars "x") compsUnderscore,
       underscoreFilter (chars "x") compsUnderscore, compsUnderscore] ∧
    (∀ x ∈ underscoreFilter (chars "x") compsUnderscore,
      (stripEsc x).take 1 ≠ ['_']) ∧
    filter_completions (CompState.mk (some (chars "x")) 1) (chars "xy") compsUnderscore =
      (CompState.mk (some (chars "xy")) 0, underscoreFilter (chars "xy") compsUnderscore) :=
  ⟨(filter_completions_escalation (chars "x") compsUnderscore).1,
   (filter_completions_escalation (chars "x") compsUnderscore).2.1 (by decide),
   (filter_completions_escalation (chars "x") compsUnderscore).2.2
     (CompState.mk (some (chars "x")) 1) (chars "xy") (by decide)⟩

/-- **C9 counterexample.**  A 4-line function listed with
`max_lines = 2` produces *no* ellipsis marker: the effective window is
`max(6, 2) = 6`, the 4 lines fit, and all of them are shown. -/
theorem cut_lines_four_lines_two_budget :
    cut_lines fourLines 1 2 1 none =
      [(some 1, chars "def f():"), (some 2, chars "    a = 1"),
       (some 3, chars "    b = 2"), (some 4, chars "    return a + b")] ∧
    ∀ p ∈ cut_lines fourLines 1 2 1 none, p.1 ≠ none := by decide

/-- **C9 amended.**  The effective line window of `_cut_lines` is
`max(6, requested)` (a falsy request meaning the source length):
whenever the source fits in that window — in particular any source of
at most 6 lines, such as a 4-line function with `max_lines = 2` — every
line is shown at its own number and no ellipsis marker is produced. -/
theorem cut_lines_full_within_window (lines : List Str)
    (lineno maxLines0 fLineno : Nat) (excLineno : Option Nat)
    (h : lines.length ≤ max 6 (if maxLines0 = 0 then lines.length else maxLines0)) :
    cut_lines lines lineno maxLines0 fLineno excLineno =
      lines.enum.map (fun p => (some (lineno + p.1), p.2)) ∧
    ∀ p ∈ cut_lines lines lineno maxLines0 fLineno excLineno, p.1 ≠ none := by
  have heq : cut_lines lines lineno maxLines0 fLineno excLineno =
      lines.enum.map (fun p => (some (lineno + p.1), p.2)) := by
    simp only [cut_lines]
    rw [if_pos h]
  refine ⟨heq, ?_⟩
  rw [heq]
  intro p hp
  obtain ⟨q, _, rfl⟩ := List.mem_map.mp hp
  simp

/-- **C9 amended witness**: the 4-line, `max_lines = 2` instance. -/
theorem cut_lines_full_within_window_witness :
    cut_lines fourLines 1 2 1 none =
      fourLines.enum.map (fun p => (some (1 + p.1), p.2)) ∧
    ∀ p ∈ cut_lines fourLines 1 2 1 none, p.1 ≠ none :=
  cut_lines_full_within_window fourLines 1 2 1 none (by decide)

/-!
### Lemmas on the `RE_COLOR_ESCAPES` matcher (towards C10)
-/

theorem takeWhile_dropWhile_mid {mid t : Str} (hmem : ∀ c ∈ mid, c ≠ 'm') :
    (mid ++ 'm' :: t).takeWhile (· ≠ 'm') = mid ∧
    (mid ++ 'm' :: t).dropWhile (· ≠ 'm') = 'm' :: t := by
  induction mid with
  | nil => simp [List.takeWhile, List.dropWhile]
  | cons a as ih =>
    have ha : a ≠ 'm' := hmem a (by simp)
    have ih2 := ih (fun c hc => hmem c (by simp [hc]))
    refine ⟨?_, ?_⟩
    · rw [List.cons_append, List.takeWhile_cons_of_pos (by simpa using ha), ih2.1]
    · rw [List.cons_append, List.dropWhile_cons_of_pos (by simpa using ha), ih2.2]

theorem unitSplit_spec {l u r : Str} (h : unitSplit l = some (u, r)) :
    l = u ++ r ∧ UnitShape u := by
  match l with
  | [] => simp [unitSplit] at h
  | c :: rest =>
    simp only [unitSplit] at h
    split at h
    case isTrue hc =>
      split at h
      case h_1 after heq =>
        split at h
        case isTrue => exact absurd h (by simp)
        case isFalse hmid =>
          injection h with h2
          injection h2 with hu hr
          subst hu; subst hr; subst hc
          constructor
          · have hsplit := List.takeWhile_append_dropWhile
              (p := fun x => decide (x ≠ 'm')) (l := rest)
            rw [heq] at hsplit
            simp only [List.cons_append, List.append_assoc, List.singleton_append,
              List.nil_append]
            rw [hsplit]
          · exact ⟨rest.takeWhile (· ≠ 'm'), hmid,
              fun c hc => by simpa using List.mem_takeWhile_imp hc, rfl⟩
      case h_2 => exact absurd h (by simp)
    case isFalse hc => exact absurd h (by simp)

theorem UnitShape.three_le {u : Str} (h : UnitShape u) : 3 ≤ u.length := by
  obtain ⟨mid, hne, _, rfl⟩ := h
  have := List.length_pos.mpr hne
  simp [List.length_append]
  omega

theorem UnitShape.unitSplit_append {u : Str} (h : UnitShape u) (t : Str) :
    unitSplit (u ++ t) = some (u, t) := by
  obtain ⟨mid, hne, hmem, rfl⟩ := h
  have hw := takeWhile_dropWhile_mid (t := t) hmem
  have hshape : (escChar :: mid ++ ['m']) ++ t = escChar :: (mid ++ 'm' :: t) := by
    simp
  rw [hshape]
  simp only [unitSplit, hw.1, hw.2, if_neg hne]
  simp

theorem unitSplit_some_length {l u r : Str} (h : unitSplit l = some (u, r)) :
    r.length + 3 ≤ l.length := by
  obtain ⟨hl, hshape⟩ := unitSplit_spec h
  have := hshape.three_le
  rw [hl, List.length_append]
  omega

theorem unitsF_congr : ∀ (f1 f2 : Nat) (l : Str), l.length ≤ f1 → l.length ≤ f2 →
    unitsF f1 l = unitsF f2 l := by
  intro f1
  induction f1 with
  | zero =>
    intro f2 l h1 _
    have : l = [] := List.eq_nil_of_length_eq_zero (Nat.le_zero.mp h1)
    subst this
    cases f2 with
    | zero => rfl
    | succ g => simp [unitsF, unitSplit]
  | succ f ih =>
    intro f2 l h1 h2
    cases f2 with
    | zero =>
      have : l = [] := List.eq_nil_of_length_eq_zero (Nat.le_zero.mp h2)
      subst this
      simp [unitsF, unitSplit]
    | succ g =>
      show (match unitSplit l with
        | none => none
        | some (u, r) =>
          match unitsF f r with
          | none => some (u, r)
          | some (m, r2) => some (u ++ m, r2)) =
        (match unitSplit l with
        | none => none
        | some (u, r) =>
          match unitsF g r with
          | none => some (u, r)
          | some (m, r2) => some (u ++ m, r2))
      rcases hu : unitSplit l with _ | ⟨u, r⟩
      · simp only [hu]
      · have hlen := unitSplit_some_length hu
        simp only [hu]
        rw [ih g r (by omega) (by omega)]

theorem escMatch_eq (l : Str) : escMatch l =
    (match unitSplit l with
      | none => none
      | some (u, r) =>
        (match escMatch r with
          | none => some (u, r)
          | some (m, r2) => some (u ++ m, r2))) := by
  cases l with
  | nil => rfl
  | cons c rest =>
    show unitsF (rest.length + 1) (c :: rest) = _
    show (match unitSplit (c :: rest) with
      | none => none
      | some (u, r) =>
        match unitsF rest.length r with
        | none => some (u, r)
        | some (m, r2) => some (u ++ m, r2)) = _
    rcases hu : unitSplit (c :: rest) with _ | ⟨u, r⟩
    · simp only [hu]
    · have hlen := unitSplit_some_length hu
      simp only [hu]
      rw [unitsF_congr rest.length r.length r (by simp at hlen; omega) le_rfl]
      rfl

theorem escMatch_none {l : Str} (h : escMatch l = none) : unitSplit l = none := by
  rw [escMatch_eq] at h
  rcases hu : unitSplit l with _ | ⟨u, r⟩
  · rfl
  · simp only [hu] at h
    rcases he : escMatch r with _ | ⟨m, r2⟩ <;> simp only [he] at h <;>
      exact absurd h (by simp)

theorem escMatch_of_unitSplit_none {l : Str} (h : unitSplit l = none) :
    escMatch l = none := by
  rw [escMatch_eq, h]

theorem escMatch_spec_aux : ∀ (n : Nat) (l m r : Str), l.length ≤ n →
    escMatch l = some (m, r) →
    l = m ++ r ∧ UnitChain m ∧ unitSplit r = none := by
  intro n
  induction n with
  | zero =>
    intro l m r hlen h
    have : l = [] := List.eq_nil_of_length_eq_zero (Nat.le_zero.mp hlen)
    subst this
    exact absurd h (by simp [escMatch, unitsF])
  | succ n ih =>
    intro l m r hlen h
    rw [escMatch_eq] at h
    rcases hu : unitSplit l with _ | ⟨u, r1⟩
    · simp only [hu] at h
      exact absurd h (by simp)
    · simp only [hu] at h
      obtain ⟨hlu, hshape⟩ := unitSplit_spec hu
      have hr1len := unitSplit_some_length hu
      rcases he : escMatch r1 with _ | ⟨m1, r2⟩
      · simp only [he] at h
        injection h with h2
        injection h2 with hm hr
        subst hm; subst hr
        exact ⟨hlu, UnitChain.single hshape, escMatch_none he⟩
      · simp only [he] at h
        injection h with h2
        injection h2 with hm hr
        subst hm; subst hr
        obtain ⟨hr1, hchain, hstop⟩ := ih r1 m1 r2 (by omega) he
        refine ⟨?_, UnitChain.cons hshape hchain, hstop⟩
        rw [hlu, hr1, List.append_assoc]

theorem escMatch_spec {l m r : Str} (h : escMatch l = some (m, r)) :
    l = m ++ r ∧ UnitChain m ∧ unitSplit r = none :=
  escMatch_spec_aux l.length l m r le_rfl h

theorem UnitChain.ne_nil {m : Str} (h : UnitChain m) : m ≠ [] := by
  induction h with
  | single hs => obtain ⟨mid, _, _, rfl⟩ := hs; simp
  | cons hs _ _ => obtain ⟨mid, _, _, rfl⟩ := hs; simp

theorem UnitChain.getLast_m {m : Str} (h : UnitChain m) : m.getLast? = some 'm' := by
  induction h with
  | single hs =>
    obtain ⟨mid, _, _, rfl⟩ := hs
    rw [show escChar :: mid ++ ['m'] = (escChar :: mid) ++ ['m'] by simp,
      List.getLast?_concat]
  | cons hs hc ih =>
    simp [List.getLast?_append, ih]

theorem UnitShape.getElem_m {u : Str} (h : UnitShape u) {j : Nat}
    (hj : u[j]? = some 'm') : j + 1 = u.length := by
  obtain ⟨mid, hne, hmem, rfl⟩ := h
  match j with
  | 0 =>
    rw [show escChar :: mid ++ ['m'] = escChar :: (mid ++ ['m']) by simp] at hj
    simp only [List.getElem?_cons_zero] at hj
    exact absurd hj (by decide)
  | k+1 =>
    rw [show escChar :: mid ++ ['m'] = escChar :: (mid ++ ['m']) by simp] at hj
    simp only [List.getElem?_cons_succ] at hj
    rcases Nat.lt_trichotomy k mid.length with hk | hk | hk
    · rw [List.getElem?_append_left hk] at hj
      have hc : 'm' ∈ mid := List.getElem?_mem hj
      exact absurd (hmem 'm' hc) (by simp)
    · subst hk
      simp [List.length_append, List.length_cons]
    · have hge : (mid ++ ['m']).length ≤ k := by
        simp only [List.length_append, List.length_singleton]
        omega
      rw [List.getElem?_eq_none hge] at hj
      exact absurd hj (by simp)

theorem UnitChain.drop_chain {m : Str} (h : UnitChain m) : ∀ k, 0 < k → k < m.length →
    m[k-1]? = some 'm' → UnitChain (m.drop k) := by
  induction h with
  | single hs =>
    intro k hk0 hklen hm
    have := hs.getElem_m hm
    omega
  | cons hs hc ih =>
    rename_i u m'
    intro k hk0 hklen hm
    by_cases hcase : k - 1 < u.length
    · have hu : u[k-1]? = some 'm' := by
        rw [List.getElem?_append_left hcase] at hm
        exact hm
      have hk := hs.getElem_m hu
      have hku : k = u.length := by omega
      subst hku
      rw [List.drop_left]
      exact hc
    · push_neg at hcase
      have hlen : (u ++ m').length = u.length + m'.length := List.length_append u m'
      have h1 : 0 < k - u.length := by omega
      have h2 : k - u.length < m'.length := by omega
      have h3 : m'[(k - u.length) - 1]? = some 'm' := by
        rw [List.getElem?_append_right hcase] at hm
        have : k - 1 - u.length = k - u.length - 1 := by omega
        rwa [this] at hm
      have hdrop : (u ++ m').drop k = m'.drop (k - u.length) := by
        have : k = u.length + (k - u.length) := by omega
        rw [this, List.drop_append]
        congr 1
        omega
      rw [hdrop]
      exact ih (k - u.length) h1 h2 h3

theorem UnitChain.unitSplit_append_isSome {m : Str} (h : UnitChain m) (t : Str) :
    ∃ p, unitSplit (m ++ t) = some p := by
  cases h with
  | single hs => exact ⟨(m, t), hs.unitSplit_append t⟩
  | cons hs hc =>
    rename_i u m'
    rw [List.append_assoc]
    exact ⟨(u, m' ++ t), hs.unitSplit_append (m' ++ t)⟩

theorem chain_length_pos {m : Str} (h : UnitChain m) : 0 < m.length :=
  List.length_pos.mpr h.ne_nil

theorem stripF_congr : ∀ (f1 f2 : Nat) (l : Str), l.length ≤ f1 → l.length ≤ f2 →
    stripF f1 l = stripF f2 l := by
  intro f1
  induction f1 with
  | zero =>
    intro f2 l h1 _
    have : l = [] := List.eq_nil_of_length_eq_zero (Nat.le_zero.mp h1)
    subst this
    cases f2 with
    | zero => rfl
    | succ g => rfl
  | succ f ih =>
    intro f2 l h1 h2
    cases f2 with
    | zero =>
      have : l = [] := List.eq_nil_of_length_eq_zero (Nat.le_zero.mp h2)
      subst this
      rfl
    | succ g =>
      cases l with
      | nil => rfl
      | cons c rest =>
        show (match escMatch (c :: rest) with
          | some (_, rem) => stripF f rem
          | none => c :: stripF f rest) =
          (match escMatch (c :: rest) with
          | some (_, rem) => stripF g rem
          | none => c :: stripF g rest)
        rcases he : escMatch (c :: rest) with _ | ⟨m, rem⟩
        · simp only [he]
          rw [ih g rest (by simp at h1; omega) (by simp at h2; omega)]
        · simp only [he]
          obtain ⟨hl, hchain, _⟩ := escMatch_spec he
          have hmlen := chain_length_pos hchain
          have : rest.length + 1 = m.length + rem.length := by
            have := congrArg List.length hl
            simpa [List.length_append] using this
          rw [ih g rem (by simp at h1; omega) (by simp at h2; omega)]

theorem stripEsc_cons (c : Char) (rest : Str) : stripEsc (c :: rest) =
    (match escMatch (c :: rest) with
      | some (_, rem) => stripEsc rem
      | none => c :: stripEsc rest) := by
  show (match escMatch (c :: rest) with
    | some (_, rem) => stripF rest.length rem
    | none => c :: stripF rest.length rest) = _
  rcases he : escMatch (c :: rest) with _ | ⟨m, rem⟩
  · simp only [he]
    rfl
  · simp only [he]
    obtain ⟨hl, hchain, _⟩ := escMatch_spec he
    have hmlen := chain_length_pos hchain
    have hlen : rest.length + 1 = m.length + rem.length := by
      have := congrArg List.length hl
      simpa [List.length_append] using this
    exact stripF_congr rest.length rem.length rem (by omega) le_rfl

theorem stripEsc_length_le_aux : ∀ (n : Nat) (l : Str), l.length ≤ n →
    (stripEsc l).length ≤ l.length := by
  intro n
  induction n with
  | zero =>
    intro l h
    have : l = [] := List.eq_nil_of_length_eq_zero (Nat.le_zero.mp h)
    subst this
    simp [stripEsc, stripF]
  | succ n ih =>
    intro l h
    cases l with
    | nil => simp [stripEsc, stripF]
    | cons c rest =>
      rw [stripEsc_cons]
      rcases he : escMatch (c :: rest) with _ | ⟨m, rem⟩
      · simp only [he]
        have := ih rest (by simp at h; omega)
        simp
        omega
      · simp only [he]
        obtain ⟨hl, hchain, _⟩ := escMatch_spec he
        have hmlen := chain_length_pos hchain
        have hlen : rest.length + 1 = m.length + rem.length := by
          have := congrArg List.length hl
          simpa [List.length_append] using this
        have := ih rem (by simp at h; omega)
        simp
        omega

theorem stripEsc_length_le (l : Str) : (stripEsc l).length ≤ l.length :=
  stripEsc_length_le_aux l.length l le_rfl

/-- Restart lemma: dropping a prefix that ends just after an `m` at a
position where no unit matches cannot increase the visible length. -/
theorem stripEsc_drop_le_aux : ∀ (n : Nat) (r : Str) (k : Nat), r.length ≤ n →
    (k = 0 ∨ (r[k-1]? = some 'm' ∧ unitSplit (r.drop k) = none)) →
    (stripEsc (r.drop k)).length ≤ (stripEsc r).length := by
  intro n
  induction n with
  | zero =>
    intro r k hlen _
    have : r = [] := List.eq_nil_of_length_eq_zero (Nat.le_zero.mp hlen)
    subst this
    simp
  | succ n ih =>
    intro r k hlen hcond
    rcases hcond with rfl | ⟨hm, hnone⟩
    · simp
    cases r with
    | nil => simp
    | cons c rest =>
      by_cases hkz : k = 0
      · subst hkz
        simp
      have hk0 : 0 < k := by omega
      rw [stripEsc_cons]
      rcases he : escMatch (c :: rest) with _ | ⟨mtk, rem⟩
      · simp only [he]
        have hdrop : (c :: rest).drop k = rest.drop (k - 1) := by
          cases k with
          | zero => omega
          | succ k2 => simp
        rw [hdrop]
        by_cases hk1 : k - 1 = 0
        · rw [hk1, List.drop_zero]
          simp
        · have h2 : (stripEsc (rest.drop (k-1))).length ≤ (stripEsc rest).length := by
            apply ih rest (k - 1) (by simp at hlen; omega)
            refine Or.inr ⟨?_, ?_⟩
            · have hidx : (c :: rest)[k-1]? = rest[k-2]? := by
                have : k - 1 = (k - 2) + 1 := by omega
                rw [this, List.getElem?_cons_succ]
              rw [hidx] at hm
              have : (k - 1) - 1 = k - 2 := by omega
              rw [this]
              exact hm
            · rw [← hdrop]
              exact hnone
          simp
          omega
      · simp only [he]
        obtain ⟨hl, hchain, hstop⟩ := escMatch_spec he
        have hj1 := chain_length_pos hchain
        have hjlen : rest.length + 1 = mtk.length + rem.length := by
          have := congrArg List.length hl
          simpa [List.length_append] using this
        rcases Nat.lt_trichotomy k mtk.length with hk | hk | hk
        · exfalso
          have hmk : mtk[k-1]? = some 'm' := by
            rw [hl, List.getElem?_append_left (by omega)] at hm
            exact hm
          have hdchain := hchain.drop_chain k hk0 hk hmk
          obtain ⟨p, hp⟩ := hdchain.unitSplit_append_isSome rem
          have hdrop : (c :: rest).drop k = mtk.drop k ++ rem := by
            rw [hl, List.drop_append_of_le_length (by omega)]
          rw [hdrop, hp] at hnone
          exact absurd hnone (by simp)
        · have hdrop : (c :: rest).drop k = rem := by
            rw [hl, List.drop_left' hk.symm]
          rw [hdrop]
        · have hdrop : (c :: rest).drop k = rem.drop (k - mtk.length) := by
            rw [hl]
            have : k = mtk.length + (k - mtk.length) := by omega
            rw [this, List.drop_append]
            congr 1
            omega
          rw [hdrop]
          have hlen2 : rest.length + 1 ≤ n + 1 := by simpa using hlen
          apply ih rem (k - mtk.length) (by omega)
          refine Or.inr ⟨?_, ?_⟩
          · rw [hl, List.getElem?_append_right (by omega)] at hm
            have : k - 1 - mtk.length = (k - mtk.length) - 1 := by omega
            rwa [this] at hm
          · rw [← hdrop]
            exact hnone

theorem stripEsc_drop_le {r : Str} {k : Nat}
    (h : k = 0 ∨ (r[k-1]? = some 'm' ∧ unitSplit (r.drop k) = none)) :
    (stripEsc (r.drop k)).length ≤ (stripEsc r).length :=
  stripEsc_drop_le_aux r.length r k le_rfl h

theorem unitSplit_extend {p z u r : Str} (h : unitSplit p = some (u, r)) :
    unitSplit (p ++ z) = some (u, r ++ z) := by
  obtain ⟨hp, hshape⟩ := unitSplit_spec h
  rw [hp, List.append_assoc]
  exact hshape.unitSplit_append (r ++ z)

theorem unitSplit_none_of_append {p z : Str} (h : unitSplit (p ++ z) = none) :
    unitSplit p = none := by
  rcases hu : unitSplit p with _ | ⟨u, r⟩
  · rfl
  · rw [unitSplit_extend hu] at h
    exact absurd h (by simp)

theorem escMatch_some_of_unitSplit_some {l : Str} {q : Str × Str}
    (h : unitSplit l = some q) : ∃ p, escMatch l = some p := by
  rw [escMatch_eq, h]
  rcases he : escMatch q.2 with _ | ⟨m, r2⟩ <;> simp [he]

theorem UnitChain.getElem_last {m : Str} (h : UnitChain m) :
    m[m.length - 1]? = some 'm' := by
  rw [← List.getLast?_eq_getElem?]
  exact h.getLast_m

/-- Prepending one whole match to a string cannot increase the visible
length: the leading chain is consumed (with a possible greedy extension
into the suffix) and the scan restarts at an inert point. -/
theorem stripEsc_chain_append_le {e : Str} (t : Str) (hchain : UnitChain e) :
    (stripEsc (e ++ t)).length ≤ (stripEsc t).length := by
  rcases he2 : escMatch (e ++ t) with _ | ⟨mtk, rem⟩
  · exfalso
    obtain ⟨p, hp⟩ := hchain.unitSplit_append_isSome t
    rw [escMatch_none he2] at hp
    exact absurd hp (by simp)
  · obtain ⟨hl, hchain2, hstop⟩ := escMatch_spec he2
    have hj1 := chain_length_pos hchain2
    have he1 := chain_length_pos hchain
    have hstrip : stripEsc (e ++ t) = stripEsc rem := by
      cases e with
      | nil => exact absurd rfl hchain.ne_nil
      | cons c e' =>
        rw [List.cons_append, stripEsc_cons]
        rw [List.cons_append] at he2
        simp only [he2]
    rw [hstrip]
    have hlastm : mtk[mtk.length - 1]? = some 'm' := hchain2.getElem_last
    have hmem : (e ++ t)[mtk.length - 1]? = some 'm' := by
      rw [hl, List.getElem?_append_left (by omega)]
      exact hlastm
    have hrem : rem = (e ++ t).drop mtk.length := by
      have h2 := congrArg (List.drop mtk.length) hl
      rw [List.drop_left' rfl] at h2
      exact h2.symm
    rcases Nat.lt_trichotomy mtk.length e.length with hk | hk | hk
    · exfalso
      have hme : e[mtk.length - 1]? = some 'm' := by
        rw [List.getElem?_append_left (by omega)] at hmem
        exact hmem
      have hdchain := hchain.drop_chain mtk.length (by omega) hk hme
      obtain ⟨p, hp⟩ := hdchain.unitSplit_append_isSome t
      rw [hrem, List.drop_append_of_le_length (by omega)] at hstop
      rw [hp] at hstop
      exact absurd hstop (by simp)
    · have : rem = t := by
        rw [hrem, List.drop_left' hk.symm]
      rw [this]
    · have hremt : rem = t.drop (mtk.length - e.length) := by
        rw [hrem]
        have : mtk.length = e.length + (mtk.length - e.length) := by omega
        rw [this, List.drop_append]
        congr 1
        omega
      rw [hremt]
      apply stripEsc_drop_le
      refine Or.inr ⟨?_, ?_⟩
      · rw [List.getElem?_append_right (by omega)] at hmem
        have : mtk.length - 1 - e.length = (mtk.length - e.length) - 1 := by omega
        rwa [this] at hmem
      · rw [← hremt]
        exact hstop

theorem unitSplit_some_of_escMatch_some {l : Str} {p : Str × Str}
    (h : escMatch l = some p) : ∃ q, unitSplit l = some q := by
  rcases hu : unitSplit l with _ | q
  · rw [escMatch_eq, hu] at h
    exact absurd h (by simp)
  · exact ⟨q, rfl⟩

/-- Sandwich lemma: a full match `e` placed between arbitrary text `x`
and a tail `t` contributes no visible characters; the visible length is
bounded by the full length of `x` plus the visible length of `t`. -/
theorem stripEsc_mid_chain_le_aux : ∀ (n : Nat) (x e t : Str), x.length ≤ n →
    UnitChain e →
    (stripEsc (x ++ (e ++ t))).length ≤ x.length + (stripEsc t).length := by
  intro n
  induction n with
  | zero =>
    intro x e t hlen hchain
    have : x = [] := List.eq_nil_of_length_eq_zero (Nat.le_zero.mp hlen)
    subst this
    simpa using stripEsc_chain_append_le t hchain
  | succ n ih =>
    intro x e t hlen hchain
    cases x with
    | nil => simpa using stripEsc_chain_append_le t hchain
    | cons c x2 =>
      rw [List.cons_append, stripEsc_cons]
      rcases he2 : escMatch (c :: (x2 ++ (e ++ t))) with _ | ⟨mtk, rem⟩
      · simp only [he2]
        have hih := ih x2 e t (by simp at hlen; omega) hchain
        simp only [List.length_cons]
        omega
      · simp only [he2]
        obtain ⟨hl, hchain2, hstop⟩ := escMatch_spec he2
        have hxlen : (c :: x2).length = x2.length + 1 := List.length_cons c x2
        have hlX : (c :: x2) ++ (e ++ t) = mtk ++ rem := by
          rw [List.cons_append]
          exact hl
        have hlastm : mtk[mtk.length - 1]? = some 'm' := hchain2.getElem_last
        have hj1 := chain_length_pos hchain2
        have hrem : rem = ((c :: x2) ++ (e ++ t)).drop mtk.length := by
          have h2 := congrArg (List.drop mtk.length) hlX
          rw [List.drop_left' rfl] at h2
          exact h2.symm
        have hmem : ((c :: x2) ++ (e ++ t))[mtk.length - 1]? = some 'm' := by
          rw [hlX, List.getElem?_append_left (by omega)]
          exact hlastm
        have hLe := chain_length_pos hchain
        have htotal : mtk.length ≤ (c :: x2).length + (e.length + t.length) := by
          have := congrArg List.length hlX
          simp only [List.length_append] at this
          omega
        rcases Nat.lt_trichotomy mtk.length (c :: x2).length with hk | hk | hk
        · -- match ends inside x
          have hremx : rem = (c :: x2).drop mtk.length ++ (e ++ t) := by
            rw [hrem, List.drop_append_of_le_length (by omega)]
          have hih := ih ((c :: x2).drop mtk.length) e t
            (by rw [List.length_drop]; omega) hchain
          rw [hremx]
          calc (stripEsc ((c :: x2).drop mtk.length ++ (e ++ t))).length
              ≤ ((c :: x2).drop mtk.length).length + (stripEsc t).length := hih
            _ ≤ (c :: x2).length + (stripEsc t).length := by
                rw [List.length_drop]
                omega
        · -- match ends exactly at the x/e boundary: impossible to stop
          -- there (greedy would continue into the chain e), and indeed the
          -- stop condition contradicts e being a chain
          exfalso
          have hreme : rem = e ++ t := by
            rw [hrem, hk, List.drop_left]
          obtain ⟨p, hp⟩ := hchain.unitSplit_append_isSome t
          rw [hreme, hp] at hstop
          exact absurd hstop (by simp)
        · rcases Nat.lt_trichotomy mtk.length ((c :: x2).length + e.length) with hk2 | hk2 | hk2
          · -- match ends strictly inside e: contradiction with greediness
            exfalso
            have hke : e[mtk.length - (c :: x2).length - 1]? = some 'm' := by
              rw [List.getElem?_append_right (by omega)] at hmem
              rw [List.getElem?_append_left (by omega)] at hmem
              have : mtk.length - 1 - (c :: x2).length =
                  mtk.length - (c :: x2).length - 1 := by omega
              rwa [this] at hmem
            have hdchain := hchain.drop_chain (mtk.length - (c :: x2).length)
              (by omega) (by omega) hke
            obtain ⟨p, hp⟩ := hdchain.unitSplit_append_isSome t
            have hreme : rem = e.drop (mtk.length - (c :: x2).length) ++ t := by
              set k := mtk.length - (c :: x2).length with hkdef
              rw [hrem]
              have hsplit : mtk.length = (c :: x2).length + k := by omega
              rw [hsplit, List.drop_append,
                List.drop_append_of_le_length (by omega)]
            rw [hreme, hp] at hstop
            exact absurd hstop (by simp)
          · -- match ends exactly at the e/t boundary
            have hremt : rem = t := by
              rw [hrem]
              have hsplit : mtk.length = (c :: x2).length + e.length := hk2
              rw [hsplit, List.drop_append, List.drop_left]
            rw [hremt]
            exact Nat.le_add_left _ _
          · -- match extends into t, ending just after an m with no unit next
            have hremt : rem = t.drop (mtk.length - (c :: x2).length - e.length) := by
              set k := mtk.length - (c :: x2).length - e.length with hkdef
              rw [hrem]
              have hsplit : mtk.length = (c :: x2).length + (e.length + k) := by omega
              rw [hsplit, List.drop_append, List.drop_append]
            have hbound : (stripEsc (t.drop (mtk.length - (c :: x2).length - e.length))).length
                ≤ (stripEsc t).length := by
              apply stripEsc_drop_le
              refine Or.inr ⟨?_, ?_⟩
              · rw [List.getElem?_append_right (by omega)] at hmem
                rw [List.getElem?_append_right (by omega)] at hmem
                have : mtk.length - 1 - (c :: x2).length - e.length =
                    mtk.length - (c :: x2).length - e.length - 1 := by omega
                rwa [this] at hmem
              · rw [← hremt]
                exact hstop
            rw [hremt]
            omega

theorem stripEsc_mid_chain_le {x e t : Str} (hchain : UnitChain e) :
    (stripEsc (x ++ (e ++ t))).length ≤ x.length + (stripEsc t).length :=
  stripEsc_mid_chain_le_aux x.length x e t le_rfl hchain

/-- Appending a full match to a string cannot increase its visible
length. -/
theorem stripEsc_append_chain_le_aux : ∀ (n : Nat) (x e : Str), x.length ≤ n →
    UnitChain e → (stripEsc (x ++ e)).length ≤ (stripEsc x).length := by
  intro n
  induction n with
  | zero =>
    intro x e hlen hchain
    have : x = [] := List.eq_nil_of_length_eq_zero (Nat.le_zero.mp hlen)
    subst this
    simpa using stripEsc_chain_append_le [] hchain
  | succ n ih =>
    intro x e hlen hchain
    cases x with
    | nil => simpa using stripEsc_chain_append_le [] hchain
    | cons c x2 =>
      have hxlen : (c :: x2).length = x2.length + 1 := List.length_cons c x2
      rw [List.cons_append, stripEsc_cons]
      rcases he2 : escMatch (c :: (x2 ++ e)) with _ | ⟨mtk, rem⟩
      · simp only [he2]
        have hnx : escMatch (c :: x2) = none := by
          rcases hx : escMatch (c :: x2) with _ | ⟨m0, r0⟩
          · rfl
          · exfalso
            obtain ⟨q, hq⟩ := unitSplit_some_of_escMatch_some hx
            have hext := unitSplit_extend (z := e) hq
            rw [List.cons_append] at hext
            obtain ⟨p, hp⟩ := escMatch_some_of_unitSplit_some hext
            rw [hp] at he2
            exact absurd he2 (by simp)
        rw [stripEsc_cons c x2]
        simp only [hnx]
        have hih := ih x2 e (by omega) hchain
        simp only [List.length_cons]
        omega
      · simp only [he2]
        obtain ⟨hl, hchain2, hstop⟩ := escMatch_spec he2
        have hlX : (c :: x2) ++ e = mtk ++ rem := by
          rw [List.cons_append]
          exact hl
        have hlastm : mtk[mtk.length - 1]? = some 'm' := hchain2.getElem_last
        have hj1 := chain_length_pos hchain2
        have hrem : rem = ((c :: x2) ++ e).drop mtk.length := by
          have h2 := congrArg (List.drop mtk.length) hlX
          rw [List.drop_left' rfl] at h2
          exact h2.symm
        have hmem : ((c :: x2) ++ e)[mtk.length - 1]? = some 'm' := by
          rw [hlX, List.getElem?_append_left (by omega)]
          exact hlastm
        have htotal : mtk.length ≤ (c :: x2).length + e.length := by
          have := congrArg List.length hlX
          simp only [List.length_append] at this
          omega
        rcases Nat.lt_trichotomy mtk.length (c :: x2).length with hk | hk | hk
        · -- match ends inside x: restart bound on x, induction on the rest
          have hremx : rem = (c :: x2).drop mtk.length ++ e := by
            rw [hrem, List.drop_append_of_le_length (by omega)]
          have hih := ih ((c :: x2).drop mtk.length) e
            (by rw [List.length_drop]; omega) hchain
          have hdnone : unitSplit ((c :: x2).drop mtk.length) = none := by
            apply unitSplit_none_of_append (z := e)
            rw [← hremx]
            exact hstop
          have hdle : (stripEsc ((c :: x2).drop mtk.length)).length ≤
              (stripEsc (c :: x2)).length := by
            apply stripEsc_drop_le
            refine Or.inr ⟨?_, hdnone⟩
            rw [List.getElem?_append_left (by omega)] at hmem
            exact hmem
          rw [hremx] at *
          omega
        · -- ends exactly at the boundary: greedy would continue into e
          exfalso
          have hreme : rem = e := by
            rw [hrem, hk, List.drop_left]
          obtain ⟨p, hp⟩ := hchain.unitSplit_append_isSome []
          rw [List.append_nil] at hp
          rw [hreme, hp] at hstop
          exact absurd hstop (by simp)
        · -- ends inside or at the end of e
          rcases Nat.lt_trichotomy mtk.length ((c :: x2).length + e.length) with hk2 | hk2 | hk2
          · exfalso
            have hke : e[mtk.length - (c :: x2).length - 1]? = some 'm' := by
              rw [List.getElem?_append_right (by omega)] at hmem
              have : mtk.length - 1 - (c :: x2).length =
                  mtk.length - (c :: x2).length - 1 := by omega
              rwa [this] at hmem
            have hdchain := hchain.drop_chain (mtk.length - (c :: x2).length)
              (by omega) (by omega) hke
            obtain ⟨p, hp⟩ := hdchain.unitSplit_append_isSome []
            rw [List.append_nil] at hp
            have hreme : rem = e.drop (mtk.length - (c :: x2).length) := by
              set k := mtk.length - (c :: x2).length with hkdef
              rw [hrem]
              have hsplit : mtk.length = (c :: x2).length + k := by omega
              rw [hsplit, List.drop_append]
            rw [hreme, hp] at hstop
            exact absurd hstop (by simp)
          · have hreme : rem = [] := by
              rw [hrem]
              have hdl : ((c :: x2) ++ e).length = mtk.length := by
                rw [List.length_append]
                omega
              rw [← hdl, List.drop_length]
            rw [hreme]
            simp [stripEsc, stripF]
          · omega

theorem stripEsc_append_chain_le {x e : Str} (hchain : UnitChain e) :
    (stripEsc (x ++ e)).length ≤ (stripEsc x).length :=
  stripEsc_append_chain_le_aux x.length x e le_rfl hchain

theorem firstSplit_spec : ∀ {s g e rest : Str}, firstSplit s = some (g, e, rest) →
    s = g ++ (e ++ rest) ∧ UnitChain e := by
  intro s
  induction s with
  | nil => intro g e rest h; simp [firstSplit] at h
  | cons c s2 ih =>
    intro g e rest h
    simp only [firstSplit] at h
    rcases he : escMatch (c :: s2) with _ | ⟨m, rem⟩
    · simp only [he] at h
      rcases hf : firstSplit s2 with _ | ⟨g2, m2, rem2⟩
      · simp only [hf] at h
        exact absurd h (by simp)
      · simp only [hf] at h
        injection h with h2
        injection h2 with hg h3
        injection h3 with hm hrest
        subst hg; subst hm; subst hrest
        obtain ⟨hs2, hchain⟩ := ih hf
        exact ⟨by rw [List.cons_append, ← hs2], hchain⟩
    · simp only [he] at h
      injection h with h2
      injection h2 with hg h3
      injection h3 with hm hrest
      subst hg; subst hm; subst hrest
      obtain ⟨hl, hchain, _⟩ := escMatch_spec he
      exact ⟨by simpa using hl, hchain⟩

theorem firstSplit_rest_lt {s g e rest : Str} (h : firstSplit s = some (g, e, rest)) :
    rest.length < s.length := by
  obtain ⟨hs, hchain⟩ := firstSplit_spec h
  have := chain_length_pos hchain
  rw [hs]
  simp [List.length_append]
  omega

theorem truncCoreF_congr : ∀ (f1 f2 : Nat) (s : Str) (b : Nat), s.length ≤ f1 →
    s.length ≤ f2 → truncCoreF f1 s b = truncCoreF f2 s b := by
  intro f1
  induction f1 with
  | zero =>
    intro f2 s b h1 _
    have : s = [] := List.eq_nil_of_length_eq_zero (Nat.le_zero.mp h1)
    subst this
    cases f2 with
    | zero => rfl
    | succ g => simp [truncCoreF, firstSplit]
  | succ f ih =>
    intro f2 s b h1 h2
    cases f2 with
    | zero =>
      have : s = [] := List.eq_nil_of_length_eq_zero (Nat.le_zero.mp h2)
      subst this
      simp [truncCoreF, firstSplit]
    | succ g =>
      show (match firstSplit s with
        | none => s.take b
        | some (gp, e, rest) =>
          if b ≤ gp.length then gp.take b ++ e
          else gp ++ e ++ truncCoreF f rest (b - gp.length)) =
        (match firstSplit s with
        | none => s.take b
        | some (gp, e, rest) =>
          if b ≤ gp.length then gp.take b ++ e
          else gp ++ e ++ truncCoreF g rest (b - gp.length))
      rcases hf : firstSplit s with _ | ⟨gp, e, rest⟩
      · simp only [hf]
      · simp only [hf]
        have hlt := firstSplit_rest_lt hf
        rw [ih g rest (b - gp.length) (by omega) (by omega)]

theorem truncCore_eq (s : Str) (b : Nat) : truncCore s b =
    (match firstSplit s with
      | none => s.take b
      | some (g, e, rest) =>
        if b ≤ g.length then g.take b ++ e
        else g ++ e ++ truncCore rest (b - g.length)) := by
  cases s with
  | nil => rfl
  | cons c s2 =>
    show (match firstSplit (c :: s2) with
      | none => (c :: s2).take b
      | some (gp, e, rest) =>
        if b ≤ gp.length then gp.take b ++ e
        else gp ++ e ++ truncCoreF s2.length rest (b - gp.length)) = _
    rcases hf : firstSplit (c :: s2) with _ | ⟨gp, e, rest⟩
    · simp only [hf]
    · simp only [hf]
      have hlt := firstSplit_rest_lt hf
      rw [truncCoreF_congr s2.length rest.length rest (b - gp.length)
        (by simp at hlt; omega) le_rfl]
      rfl

theorem lastResetF_congr : ∀ (f1 f2 : Nat) (s : Str), s.length ≤ f1 →
    s.length ≤ f2 → lastResetF f1 s = lastResetF f2 s := by
  intro f1
  induction f1 with
  | zero =>
    intro f2 s h1 _
    have : s = [] := List.eq_nil_of_length_eq_zero (Nat.le_zero.mp h1)
    subst this
    cases f2 with
    | zero => rfl
    | succ g => simp [lastResetF, firstSplit]
  | succ f ih =>
    intro f2 s h1 h2
    cases f2 with
    | zero =>
      have : s = [] := List.eq_nil_of_length_eq_zero (Nat.le_zero.mp h2)
      subst this
      simp [lastResetF, firstSplit]
    | succ g =>
      show (match firstSplit s with
        | none => none
        | some (_, e, rest) =>
          match lastResetF f rest with
          | some rs => some rs
          | none => if rest = [] then some e else none) =
        (match firstSplit s with
        | none => none
        | some (_, e, rest) =>
          match lastResetF g rest with
          | some rs => some rs
          | none => if rest = [] then some e else none)
      rcases hf : firstSplit s with _ | ⟨gp, e, rest⟩
      · simp only [hf]
      · simp only [hf]
        have hlt := firstSplit_rest_lt hf
        rw [ih g rest (by omega) (by omega)]

theorem lastReset_eq (s : Str) : lastReset s =
    (match firstSplit s with
      | none => none
      | some (_, e, rest) =>
        match lastReset rest with
        | some rs => some rs
        | none => if rest = [] then some e else none) := by
  cases s with
  | nil => rfl
  | cons c s2 =>
    show (match firstSplit (c :: s2) with
      | none => none
      | some (_, e, rest) =>
        match lastResetF s2.length rest with
        | some rs => some rs
        | none => if rest = [] then some e else none) = _
    rcases hf : firstSplit (c :: s2) with _ | ⟨gp, e, rest⟩
    · simp only [hf]
    · simp only [hf]
      have hlt := firstSplit_rest_lt hf
      rw [lastResetF_congr s2.length rest.length rest (by simp at hlt; omega) le_rfl]
      rfl

theorem lastReset_chain_aux : ∀ (n : Nat) (s rs : Str), s.length ≤ n →
    lastReset s = some rs → UnitChain rs := by
  intro n
  induction n with
  | zero =>
    intro s rs hlen h
    have : s = [] := List.eq_nil_of_length_eq_zero (Nat.le_zero.mp hlen)
    subst this
    simp [lastReset, lastResetF] at h
  | succ n ih =>
    intro s rs hlen h
    rw [lastReset_eq] at h
    rcases hf : firstSplit s with _ | ⟨gp, e, rest⟩
    · simp only [hf] at h
      exact absurd h (by simp)
    · simp only [hf] at h
      have hlt := firstSplit_rest_lt hf
      rcases hlr : lastReset rest with _ | rs2
      · simp only [hlr] at h
        split at h
        · injection h with h2
          subst h2
          exact (firstSplit_spec hf).2
        · exact absurd h (by simp)
      · simp only [hlr] at h
        injection h with h2
        rw [← h2]
        exact ih rest rs2 (by omega) hlr

theorem lastReset_chain {s rs : Str} (h : lastReset s = some rs) : UnitChain rs :=
  lastReset_chain_aux s.length s rs le_rfl h

theorem truncCore_visible_le_aux : ∀ (n : Nat) (s : Str) (b : Nat), s.length ≤ n →
    (stripEsc (truncCore s b)).length ≤ b := by
  intro n
  induction n with
  | zero =>
    intro s b hlen
    have : s = [] := List.eq_nil_of_length_eq_zero (Nat.le_zero.mp hlen)
    subst this
    simp [truncCore, truncCoreF, stripEsc, stripF]
  | succ n ih =>
    intro s b hlen
    rw [truncCore_eq]
    rcases hf : firstSplit s with _ | ⟨g, e, rest⟩
    · simp only [hf]
      calc (stripEsc (s.take b)).length ≤ (s.take b).length := stripEsc_length_le _
        _ ≤ b := by simp [List.length_take]
    · simp only [hf]
      obtain ⟨hs, hchain⟩ := firstSplit_spec hf
      have hlt := firstSplit_rest_lt hf
      by_cases hb : b ≤ g.length
      · rw [if_pos hb]
        calc (stripEsc (g.take b ++ e)).length
            ≤ (stripEsc (g.take b)).length := stripEsc_append_chain_le hchain
          _ ≤ (g.take b).length := stripEsc_length_le _
          _ ≤ b := by simp [List.length_take]
      · rw [if_neg hb]
        have hrec := ih rest (b - g.length) (by omega)
        calc (stripEsc (g ++ e ++ truncCore rest (b - g.length))).length
            = (stripEsc (g ++ (e ++ truncCore rest (b - g.length)))).length := by
              rw [List.append_assoc]
          _ ≤ g.length + (stripEsc (truncCore rest (b - g.length))).length :=
              stripEsc_mid_chain_le hchain
          _ ≤ g.length + (b - g.length) := by omega
          _ ≤ b := by omega

theorem truncCore_visible_le (s : Str) (b : Nat) :
    (stripEsc (truncCore s b)).length ≤ b :=
  truncCore_visible_le_aux s.length s b le_rfl

theorem truncate_cases (s : Str) (maxlength : Nat) :
    truncate_to_visible_length s maxlength = truncCore s maxlength ∨
    (∃ rs, lastReset s = some rs ∧
      truncate_to_visible_length s maxlength = truncCore s maxlength ++ rs) := by
  simp only [truncate_to_visible_length]
  by_cases hne : (truncCore s maxlength).length ≠ s.length
  · rw [if_pos hne]
    rcases hlr : lastReset s with _ | rs
    · left; rfl
    · by_cases hsuf : rs.isSuffixOf (truncCore s maxlength)
      · left; exact if_pos hsuf
      · right; exact ⟨rs, rfl, if_neg hsuf⟩
  · rw [if_neg hne]
    left; rfl

/-- **C10.**  `_truncate_to_visible_length` always returns a string of
visible length (after removing `RE_COLOR_ESCAPES` matches) at most
`maxlength` — the in-code assertion at line 1227 holds for every input
string and budget — and when truncation changed the string
(`len(ret) != len(s)`) and `s` ended in a reset escape sequence, the
result still ends with that reset sequence. -/
theorem truncate_to_visible_length_spec (s : Str) (maxlength : Nat) :
    (stripEsc (truncate_to_visible_length s maxlength)).length ≤ maxlength ∧
    (∀ rs, lastReset s = some rs → (truncCore s maxlength).length ≠ s.length →
      rs <:+ truncate_to_visible_length s maxlength) := by
  constructor
  · rcases truncate_cases s maxlength with heq | ⟨rs, hrs, heq⟩
    · rw [heq]
      exact truncCore_visible_le s maxlength
    · rw [heq]
      calc (stripEsc (truncCore s maxlength ++ rs)).length
          ≤ (stripEsc (truncCore s maxlength)).length :=
            stripEsc_append_chain_le (lastReset_chain hrs)
        _ ≤ maxlength := truncCore_visible_le s maxlength
  · intro rs hrs hne
    simp only [truncate_to_visible_length]
    rw [if_pos hne]
    simp only [hrs]
    by_cases hsuf : rs.isSuffixOf (truncCore s maxlength)
    · rw [if_pos hsuf]
      exact List.isSuffixOf_iff_suffix.mp hsuf
    · rw [if_neg hsuf]
      exact ⟨truncCore s maxlength, rfl⟩

/-- **C10 witness**: a colorized line truncated to 4 visible columns
keeps its reset sequence and satisfies the visible-length bound. -/
theorem truncate_to_visible_length_spec_witness :
    (stripEsc (truncate_to_visible_length coloredLine 4)).length ≤ 4 ∧
    chars "\x1b[0m" <:+ truncate_to_visible_length coloredLine 4 :=
  ⟨(truncate_to_visible_length_spec coloredLine 4).1,
   (truncate_to_visible_length_spec coloredLine 4).2 (chars "\x1b[0m")
     (by decide) (by decide)⟩
